import Mathlib

/-!
Shallow embedding of `src/mcp/server.py` (the mcp-locust tool server) and
proofs about its spec claims.

Modelling conventions:
* Filesystem paths are lists of path segments (`List String`); an absolute
  path is the list of its components from the root.
* `Path.resolve()` is modelled lexically (no symlinks): `".."` pops a
  segment, `"."` and empty segments vanish.
* Python callables with OS effects (`os.kill`, socket `bind`,
  `subprocess.run`) are modelled by oracle functions supplied as arguments;
  exceptions raised by those calls are the oracle returning failure.
* Python string methods (`lower`, `strip`, comparisons) are modelled on the
  ASCII fragment, matching CPython's behaviour on ASCII text.
-/

namespace LocustMCP

/-! ## Small string helpers (ASCII models of Python `str` methods) -/

/-- ASCII `str.lower` on one character. -/
def charLower (c : Char) : Char :=
  if 65 ≤ c.toNat ∧ c.toNat ≤ 90 then Char.ofNat (c.toNat + 32) else c

/-- ASCII model of Python `str.lower()`. -/
def lowerStr (s : String) : String := (s.toList.map charLower).asString

/-- Lexicographic `≤` on char lists by code point, as Python compares `str`. -/
def clLe : List Char → List Char → Bool
  | [], _ => true
  | _ :: _, [] => false
  | a :: as, b :: bs => if a = b then clLe as bs else decide (a.toNat < b.toNat)

/-- Python `str` `≤` (code-point lexicographic). -/
def strLe (s t : String) : Bool := clLe s.toList t.toList

/-- Is `sub` a contiguous run somewhere inside `s`? -/
def clInfixOf (sub : List Char) : List Char → Bool
  | [] => sub.isEmpty
  | c :: rest => sub.isPrefixOf (c :: rest) || clInfixOf sub rest

/-- Python `sub in s` (substring containment). -/
def strContains (s sub : String) : Bool := clInfixOf sub.toList s.toList

/-- Python `s.endswith(suf)`. -/
def strEndsWith (s suf : String) : Bool := suf.toList.reverse.isPrefixOf s.toList.reverse

/-- Python `\s` on ASCII text: the whitespace class of the `re` module. -/
def isPySpace (c : Char) : Bool :=
  c = ' ' || c = '\t' || c = '\n' || c = '\r' || c = '\x0b' || c = '\x0c'

/-- Python `str.strip()` on ASCII text. -/
def stripStr (s : String) : String :=
  (((s.toList.dropWhile isPySpace).reverse.dropWhile isPySpace).reverse).asString

/-! ## Stable sort (model of Python's stable `sorted`) -/

/-- Insert `a` in front of the first element it is `le`-below-or-equal;
keeps earlier-listed elements of equal key first, as Python's stable sort. -/
def sortedInsert (le : α → α → Bool) (a : α) : List α → List α
  | [] => [a]
  | b :: l => if le a b then a :: b :: l else b :: sortedInsert le a l

/-- Stable insertion sort: the model of Python `sorted(xs, key=...)`. -/
def stableSort (le : α → α → Bool) : List α → List α
  | [] => []
  | a :: l => sortedInsert le a (stableSort le l)

/-! ## Dedup (model of building a Python `set` before `sorted`) -/

/-- Keep the first occurrence of every element (`seen` accumulates). -/
def dedupSeen : List String → List String → List String
  | [], _ => []
  | a :: l, seen => if a ∈ seen then dedupSeen l seen else a :: dedupSeen l (a :: seen)

/-- Distinct elements of `l`, first occurrences first; `sorted(set(l))` is
modelled as `stableSort strLe (dedupStr l)`. -/
def dedupStr (l : List String) : List String := dedupSeen l []

/-! ## Path model -/

/-- Lexical model of `Path.resolve()` applied to an absolute segment list:
`".."` pops the last accumulated segment (the parent of the root is the
root), `"."` and empty segments disappear.  Symlinks are not modelled. -/
def resolveSegs : List String → List String → List String
  | acc, [] => acc
  | acc, s :: rest =>
    if s = ".." then resolveSegs acc.dropLast rest
    else if s = "." ∨ s = "" then resolveSegs acc rest
    else resolveSegs (acc ++ [s]) rest

/-- `p.resolve()` for an absolute path given as segments. -/
def resolvePath (p : List String) : List String := resolveSegs [] p

/-- A path segment free of the special forms `resolveSegs` rewrites. -/
def segOk (s : String) : Bool := s ≠ "" && s ≠ "." && s ≠ ".."

/-- The last component of a path (`Path.name`; `""` for the root). -/
def pathName (p : List String) : String := p.getLast?.getD ""

/-! ## FileResolver: discovery under the workspace root
(src/mcp/server.py lines 25-54, 109-123)

The filesystem under `WORKDIR` is modelled by a `World`: the workspace root
as an absolute segment list, and the directory entries below it in the
order the recursive scan (`Path.rglob`) yields them.  That order is
`os.scandir` order — arbitrary and filesystem-dependent — so it is an input
of the model. -/

/-- One entry below the workspace root: its path parts relative to the
root, and whether it is a regular file. -/
structure FsEntry where
  rel : List String
  isFile : Bool
deriving DecidableEq

/-- `Path.name` of an entry. -/
def entryName (e : FsEntry) : String := pathName e.rel

/-- `len(p.relative_to(workdir).parts)`, the depth key of `_find_all_locustfiles`. -/
def entryDepth (e : FsEntry) : Nat := e.rel.length

/-- The workspace: root plus entries in recursive-scan (traversal) order. -/
structure World where
  workdir : List String
  entries : List FsEntry

/-- The glob pattern `*locustfile*.py` of `rglob` (case-sensitive, as on a
POSIX filesystem): the name contains `locustfile` and ends in `.py`. -/
def globLocust (n : String) : Bool := strContains n "locustfile" && strEndsWith n ".py"

/-- `workdir.rglob("*locustfile*.py")`: the traversal-ordered entries whose
name matches the pattern. -/
def rglobLocust (w : World) : List FsEntry :=
  w.entries.filter (fun e => globLocust (entryName e))

/-- Does the absolute path `q` name a regular file of the world? -/
def isFileAt (w : World) (q : List String) : Bool :=
  w.entries.any (fun e => e.isFile && w.workdir ++ e.rel == q)

/-- `p.suffix.lower() == ".py"`: the lowered name ends in `".py"` and the
dot is not the name's first character (a bare `".py"` has no suffix). -/
def pySuffixLower (n : String) : Bool := strEndsWith (lowerStr n) ".py" && 4 ≤ n.length

/-- The name checks of `_is_locustfile`:
`p.suffix.lower() == ".py" and "locustfile" in p.name.lower()`. -/
def isLocustName (n : String) : Bool :=
  pySuffixLower n && strContains (lowerStr n) "locustfile"

/-- `_is_locustfile` applied to a scanned entry (such entries exist, and
their `is_file()` is the entry's flag). -/
def isLocustEntry (e : FsEntry) : Bool := e.isFile && isLocustName (entryName e)

/-- `_is_locustfile` applied to an arbitrary path `p` (the preferred-path
check): `p.is_file()` consults the world at the resolved path, the name
checks use `p`'s own last component. -/
def isLocustPath (w : World) (p : List String) : Bool :=
  isFileAt w (resolvePath p) && isLocustName (pathName p)

/-- `_under(base, p)`: `p.resolve().relative_to(base.resolve())` succeeds
exactly when the resolved base is a prefix of the resolved path. -/
def under (base p : List String) : Bool :=
  (resolvePath base).isPrefixOf (resolvePath p)

/-- `_find_first_locustfile`: first traversal-ordered glob match passing
`_is_locustfile`. -/
def find_first_locustfile (w : World) : Option FsEntry :=
  (rglobLocust w).find? isLocustEntry

/-- The sort key order of `_find_all_locustfiles`:
ascending `(depth, name.lower())`. -/
def locustKeyLe (a b : FsEntry) : Bool :=
  entryDepth a < entryDepth b ||
    (entryDepth a == entryDepth b && strLe (lowerStr (entryName a)) (lowerStr (entryName b)))

/-- `_find_all_locustfiles`: glob matches passing `_is_locustfile`, stably
sorted by `(depth from root, case-insensitive name)`. -/
def find_all_locustfiles (w : World) : List FsEntry :=
  stableSort locustKeyLe ((rglobLocust w).filter isLocustEntry)

/-- A caller-supplied path: `Path(preferred)` keeps `".."` parts and drops
`"."` parts; `abs` is `p.is_absolute()`. -/
structure PPath where
  abs : Bool
  parts : List String
deriving DecidableEq

/-- `p = Path(preferred); if not p.is_absolute(): p = (WORKDIR / p).resolve()`. -/
def resolvePref (w : World) (pp : PPath) : List String :=
  if pp.abs then pp.parts else resolvePath (w.workdir ++ pp.parts)

/-- The guard `if _under(WORKDIR, p) and _is_locustfile(p)` on the
caller-supplied path. -/
def prefAccepted (w : World) (pp : PPath) : Bool :=
  under w.workdir (resolvePref w pp) && isLocustPath w (resolvePref w pp)

/-- The fall-through of `_resolve_locustfile`:
`found = _find_first_locustfile(WORKDIR); if not found: raise`. -/
def resolve_fallback (w : World) : Option (List String) :=
  match find_first_locustfile w with
  | some e => some (w.workdir ++ e.rel)
  | none => none

/-- `_resolve_locustfile(preferred)`.  `none` models the
`FileNotFoundError("No locustfile found under workspace.")` raise; a
`preferred` of `none` models both `None` and the empty (falsy) string. -/
def resolve_locustfile : World → Option PPath → Option (List String)
  | w, some pp =>
    if prefAccepted w pp then some (resolvePref w pp) else resolve_fallback w
  | w, none => resolve_fallback w

/-- The output of the `locust.find` tool: `file` is the best path (`none`
models the empty string), `all` the discovered candidates. -/
structure FindResult where
  file : Option (List String)
  all : List (List String)
deriving DecidableEq

/-- `locust_find(preferred_path)`: `best` is computed only when the
candidate list is non-empty, and a `FileNotFoundError` from the resolver is
caught and turned into the empty answer. -/
def locust_find (w : World) (preferred : Option PPath) : FindResult :=
  let allMatches := (find_all_locustfiles w).map (fun e => w.workdir ++ e.rel)
  let best : Option (List String) :=
    if allMatches.isEmpty then none else resolve_locustfile w preferred
  ⟨best, allMatches⟩

/-- Well-formedness of a world, decidably: the root's segments and every
entry's relative segments are plain names (no `".."`, `"."`, `""`), and
every entry has at least one relative segment (the root itself is not an
entry). -/
def worldWF (w : World) : Bool :=
  w.workdir.all segOk &&
    w.entries.all (fun e => !e.rel.isEmpty && e.rel.all segOk)

/-! ## PortAllocator: `_free_tcp_port` (src/mcp/server.py lines 93-103)

The bind probe is an oracle `bindOk : port → Bool` (`True` = the
`s.bind(("127.0.0.1", port))` call succeeds, `False` = it raises `OSError`).
The model also returns the list of ports probed, in probe order, to state
which ports the loop touches. -/

def free_tcp_port_go (bindOk : Nat → Bool) : Nat → Nat → Option Nat × List Nat
  | _, 0 => (none, [])
  | port, n + 1 =>
    if bindOk port then (some port, [port])
    else
      let r := free_tcp_port_go bindOk (port + 1) n
      (r.1, port :: r.2)

/-- `_free_tcp_port(start, max_tries)`: `some port` on success, `none` for
the `RuntimeError("No free TCP port found for Locust UI.")` path. -/
def free_tcp_port (bindOk : Nat → Bool) (start maxTries : Nat) : Option Nat × List Nat :=
  free_tcp_port_go bindOk start maxTries

/-! ## ProcessRegistry: `_PROCESS_REGISTRY`, `locust_stop`, `locust_ps`
(src/mcp/server.py lines 23, 105-106, 240-264)

`os.kill(pid, sig)` is an oracle `kill : pid → signal → Bool` (`true` = the
call returns, `false` = it raises); the liveness probe `os.kill(pid, 0)` is
an oracle `alive : pid → Bool`. -/

/-- The metadata dict stored per tracked process. -/
structure ProcMeta where
  mode : String
  url : String
  command : String
  locustfile : String
deriving DecidableEq

/-- `_PROCESS_REGISTRY`: pid-keyed map, modelled as an association list
with distinct keys. -/
abbrev Registry := List (Nat × ProcMeta)

/-- `_PROCESS_REGISTRY.pop(pid, None)`. -/
def eraseReg (reg : Registry) (pid : Nat) : Registry :=
  List.filter (fun e => e.1 ≠ pid) reg

/-- The two signals `locust_stop` sends. -/
inductive Sig where
  | sigint
  | sigterm
deriving DecidableEq

structure StopResult where
  stopped : Bool
deriving DecidableEq

/-- `locust_stop(pid)`: try SIGINT; on an exception try SIGTERM; if that
also raises, return `stopped=False` *without* touching the registry; else
pop the pid and return `stopped=True`. -/
def locust_stop (kill : Nat → Sig → Bool) (reg : Registry) (pid : Nat) :
    StopResult × Registry :=
  if kill pid Sig.sigint then (⟨true⟩, eraseReg reg pid)
  else if kill pid Sig.sigterm then (⟨true⟩, eraseReg reg pid)
  else (⟨false⟩, reg)

/-- One row of `locust_ps`'s output: `{"pid": pid, "alive": alive, **meta}`. -/
structure PsEntry where
  pid : Nat
  alive : Bool
  meta : ProcMeta
deriving DecidableEq

/-- The loop of `locust_ps`: iterate over a snapshot
(`list(_PROCESS_REGISTRY.items())`), append every row with its probed
liveness, and pop the dead ones from the live map. -/
def psLoop (alive : Nat → Bool) : List (Nat × ProcMeta) → Registry → List PsEntry × Registry
  | [], reg => ([], reg)
  | (pid, meta) :: rest, reg =>
    let a := alive pid
    let reg' := if a then reg else eraseReg reg pid
    let r := psLoop alive rest reg'
    (⟨pid, a, meta⟩ :: r.1, r.2)

/-- `locust_ps()`: returns the reported rows and the registry as left
behind (lazily pruned). -/
def locust_ps (alive : Nat → Bool) (reg : Registry) : List PsEntry × Registry :=
  psLoop alive reg reg

/-! ## JobLauncher (headless): `locust_run_headless`
(src/mcp/server.py lines 209-237)

`subprocess.run(cmd, check=True, capture_output=True, text=True)` is an
oracle `RunOutcome`: the exit code and the captured streams of the runner
process once it has exited (the call blocks until then). -/

structure RunOutcome where
  exitCode : Int
  out : String
  err : String
deriving DecidableEq

structure HeadlessResult where
  ok : Bool
  stdout : String
  stderr : String
deriving DecidableEq

/-- Model of Python's `str(e)` for a `CalledProcessError` (the command text
is elided). -/
def cpeStr (o : RunOutcome) : String :=
  "Command returned non-zero exit status " ++ toString o.exitCode ++ "."

/-- `locust_run_headless`: on exit code 0 return
`ok=True, stdout, stderr`; on a `CalledProcessError` return
`ok=False, e.stdout, e.stderr or str(e)`.  The registry is threaded through
unchanged: the function records nothing in `_PROCESS_REGISTRY`. -/
def locust_run_headless (o : RunOutcome) (reg : Registry) : HeadlessResult × Registry :=
  if o.exitCode = 0 then (⟨true, o.out, o.err⟩, reg)
  else (⟨false, o.out, if o.err = "" then cpeStr o else o.err⟩, reg)

/-! ## ConversionBridge: `har_to_locust` (src/mcp/server.py lines 149-187)

The external `har2locust` subprocess is an oracle delivering the generated
source `code` (the claim concerns successful conversions).  The filesystem
written to is an association list from absolute paths to file text;
`out.parent.mkdir` has no observable effect in this model. -/

/-- Path-keyed file contents. -/
abbrev Fs := List (List String × String)

/-- `out.write_text(code)`: overwrite the file at `q`. -/
def fsWrite (fs : Fs) (q : List String) (c : String) : Fs :=
  (q, c) :: List.filter (fun e => e.1 ≠ q) fs

/-- Read back the text of the file at `q`. -/
def fsRead (fs : Fs) (q : List String) : Option String :=
  (List.find? (fun e => e.1 == q) fs).map Prod.snd

/-- `har.to_locust`'s return value: `path` is `none` for `""`. -/
structure HarResult where
  path : Option (List String)
  code : String
deriving DecidableEq

/-- `har_to_locust(..., write_to)` after a successful conversion producing
`code`: with a destination, resolve it against the workspace root, write
the code there and return the written path with the code; without one,
return `path=""`. -/
def har_to_locust (wd : List String) (fs : Fs) (code : String) :
    Option PPath → HarResult × Fs
  | none => (⟨none, code⟩, fs)
  | some wp =>
    let out := if wp.abs then wp.parts else resolvePath (wd ++ wp.parts)
    (⟨some out, code⟩, fsWrite fs out code)

/-! ## ScriptIntrospector: `_parse_tasks_and_tags`
(src/mcp/server.py lines 80-91)

The task regex is
`@task(?:\s*\([^)]*\))?\s*\r?\n\s*def\s+([A-Za-z_]\w*)\s*\(` under
`re.findall` (leftmost, non-overlapping; `re.MULTILINE` only affects `^`/`$`,
which do not occur).  Its backtracking is deterministic apart from the
optional argument group, which the engine first tries to consume and, if
the remainder then fails, skips.  The word classes are modelled on ASCII.
The tag regex is `@tag\s*\(([^)]*)\)` with the quoted literals of each
group extracted by `(['"])(.*?)\1` (a lazy match: the nearest closing quote
with no newline before it, `.` not matching `\n`). -/

/-- `[A-Za-z_]`. -/
def isIdentStart (c : Char) : Bool :=
  ('A' ≤ c && c ≤ 'Z') || ('a' ≤ c && c ≤ 'z') || c = '_'

/-- `\w` on ASCII. -/
def isWordChar (c : Char) : Bool := isIdentStart c || ('0' ≤ c && c ≤ '9')

/-- Match the literal `pat` at the head of `l`; `some` of the remainder. -/
def expectStr (pat l : List Char) : Option (List Char) :=
  if pat.isPrefixOf l then some (l.drop pat.length) else none

/-- The optional group `(?:\s*\([^)]*\))?` of the task regex: `some rest`
when the group is present and closes. -/
def matchGroupArgs (l : List Char) : Option (List Char) :=
  match l.dropWhile isPySpace with
  | '(' :: l2 =>
    match l2.dropWhile (fun c => c ≠ ')') with
    | ')' :: l3 => some l3
    | _ => none
  | _ => none

/-- `\s*\r?\n\s*def\s+([A-Za-z_]\w*)\s*\(`: whitespace that must contain a
newline, the `def` keyword, whitespace, the captured identifier, optional
whitespace, an opening parenthesis.  Returns the identifier and the
remainder after `(`. -/
def matchDefPart (l : List Char) : Option (String × List Char) :=
  let w1 := l.takeWhile isPySpace
  let l1 := l.dropWhile isPySpace
  if w1.contains '\n' then
    match expectStr ['d', 'e', 'f'] l1 with
    | some l2 =>
      let w2 := l2.takeWhile isPySpace
      let l3 := l2.dropWhile isPySpace
      if w2.isEmpty then none
      else
        match l3 with
        | c :: l4 =>
          if isIdentStart c then
            match (l4.dropWhile isWordChar).dropWhile isPySpace with
            | '(' :: l6 => some ((c :: l4.takeWhile isWordChar).asString, l6)
            | _ => none
          else none
        | [] => none
    | none => none
  else none

/-- One attempt of the task regex at the head of `l`: the annotation
literal, the optional argument group (tried first, then skipped if the
remainder fails, as the regex engine backtracks), then the def part. -/
def matchTaskAt (l : List Char) : Option (String × List Char) :=
  match expectStr ['@', 't', 'a', 's', 'k'] l with
  | none => none
  | some l0 =>
    match matchGroupArgs l0 with
    | some lg =>
      match matchDefPart lg with
      | some r => some r
      | none => matchDefPart l0
    | none => matchDefPart l0

/-- `re.findall` of the task regex: scan left to right, emit each
(non-overlapping) match's captured identifier and continue after the match;
else advance one character.  The fuel starts at the text's length; every
step either drops one character or a match consuming at least one, so it
never runs dry. -/
def findTasksFuel : Nat → List Char → List String
  | 0, _ => []
  | _ + 1, [] => []
  | fuel + 1, c :: rest =>
    match matchTaskAt (c :: rest) with
    | some (n, after) => n :: findTasksFuel fuel after
    | none => findTasksFuel fuel rest

/-- `task_rx.findall(source)`. -/
def findTasks (l : List Char) : List String := findTasksFuel l.length l

/-- One attempt of the tag regex `@tag\s*\(([^)]*)\)` at the head of `l`:
`some (group text, remainder)`. -/
def matchTagAt (l : List Char) : Option (List Char × List Char) :=
  match expectStr ['@', 't', 'a', 'g'] l with
  | none => none
  | some l0 =>
    match l0.dropWhile isPySpace with
    | '(' :: l2 =>
      match l2.dropWhile (fun c => c ≠ ')') with
      | ')' :: l3 => some (l2.takeWhile (fun c => c ≠ ')'), l3)
      | _ => none
    | _ => none

/-- `tag_line_rx.finditer(source)`: every tag annotation's group text. -/
def findTagGroupsFuel : Nat → List Char → List (List Char)
  | 0, _ => []
  | _ + 1, [] => []
  | fuel + 1, c :: rest =>
    match matchTagAt (c :: rest) with
    | some (inner, after) => inner :: findTagGroupsFuel fuel after
    | none => findTagGroupsFuel fuel rest

def findTagGroups (l : List Char) : List (List Char) := findTagGroupsFuel l.length l

/-- One attempt of `(['"])(.*?)\1` at the head of `l`: a quote character,
then lazily the nearest same quote with no newline in between. -/
def matchQuoteAt (l : List Char) : Option (String × List Char) :=
  match l with
  | q :: rest =>
    if q = '\'' ∨ q = '"' then
      match rest.dropWhile (fun c => c ≠ q ∧ c ≠ '\n') with
      | c :: l3 =>
        if c = q then
          some ((rest.takeWhile (fun c => c ≠ q ∧ c ≠ '\n')).asString, l3)
        else none
      | [] => none
    else none
  | [] => none

/-- `re.findall` of the quoted-literal pattern over one group text. -/
def findQuotedFuel : Nat → List Char → List String
  | 0, _ => []
  | _ + 1, [] => []
  | fuel + 1, c :: rest =>
    match matchQuoteAt (c :: rest) with
    | some (t, after) => t :: findQuotedFuel fuel after
    | none => findQuotedFuel fuel rest

def findQuoted (l : List Char) : List String := findQuotedFuel l.length l

/-- The return value of `_parse_tasks_and_tags`. -/
structure Parsed where
  tasks : List String
  tags : List String
deriving DecidableEq

/-- `_parse_tasks_and_tags(source)`: the findall'd task names as
`sorted(set(tasks))`, and the stripped non-empty quoted tag literals as a
sorted set. -/
def parse_tasks_and_tags (src : String) : Parsed :=
  let tasks := findTasks src.toList
  let lits := (findTagGroups src.toList).foldr (fun inner acc => findQuoted inner ++ acc) []
  let tags := List.filter (fun t => t ≠ "") (lits.map stripStr)
  ⟨stableSort strLe (dedupStr tasks), stableSort strLe (dedupStr tags)⟩

/-- Modelled from the spec claim's wording ("the function-definition
keyword on the same line as the annotation or on the next line"): as
`matchDefPart`, but the separating whitespace is nonempty and contains *at
most one* newline (zero = same line, one = next line). -/
def specMatchDefPart (l : List Char) : Option (String × List Char) :=
  let w1 := l.takeWhile isPySpace
  let l1 := l.dropWhile isPySpace
  if !w1.isEmpty && w1.count '\n' ≤ 1 then
    match expectStr ['d', 'e', 'f'] l1 with
    | some l2 =>
      let w2 := l2.takeWhile isPySpace
      let l3 := l2.dropWhile isPySpace
      if w2.isEmpty then none
      else
        match l3 with
        | c :: l4 =>
          if isIdentStart c then
            match (l4.dropWhile isWordChar).dropWhile isPySpace with
            | '(' :: l6 => some ((c :: l4.takeWhile isWordChar).asString, l6)
            | _ => none
          else none
        | [] => none
    | none => none
  else none

/-- The spec-worded recognizer's single attempt. -/
def specMatchTaskAt (l : List Char) : Option (String × List Char) :=
  match expectStr ['@', 't', 'a', 's', 'k'] l with
  | none => none
  | some l0 =>
    match matchGroupArgs l0 with
    | some lg =>
      match specMatchDefPart lg with
      | some r => some r
      | none => specMatchDefPart l0
    | none => specMatchDefPart l0

/-- The spec-worded recognizer's scan. -/
def specFindTasksFuel : Nat → List Char → List String
  | 0, _ => []
  | _ + 1, [] => []
  | fuel + 1, c :: rest =>
    match specMatchTaskAt (c :: rest) with
    | some (n, after) => n :: specFindTasksFuel fuel after
    | none => specFindTasksFuel fuel rest

/-- All task names the spec's wording recognizes in the text. -/
def specFindTasks (l : List Char) : List String := specFindTasksFuel l.length l

/-- A run of regex whitespace. -/
def SpaceRun (w : List Char) : Prop := ∀ c ∈ w, isPySpace c = true

/-- The shape of the optional argument group of the task regex. -/
def GroupShape (g : List Char) : Prop :=
  g = [] ∨ ∃ gw inner, g = gw ++ '(' :: (inner ++ [')']) ∧ SpaceRun gw ∧
    ∀ c ∈ inner, c ≠ ')'

/-- The captured identifier's shape: `[A-Za-z_]\w*`. -/
def IdentShape (n : String) : Prop :=
  ∃ c cs, n.toList = c :: cs ∧ isIdentStart c = true ∧ ∀ x ∈ cs, isWordChar x = true

/-- A full match of the task regex reading `n` and leaving `r`: annotation,
optional argument group, whitespace containing a newline, `def`, nonempty
whitespace, the identifier, whitespace, `(`. -/
def TaskMatch (l : List Char) (n : String) (r : List Char) : Prop :=
  ∃ g w1 w2 w3,
    l = '@' :: 't' :: 'a' :: 's' :: 'k' ::
        (g ++ w1 ++ ('d' :: 'e' :: 'f' :: (w2 ++ n.toList ++ w3 ++ '(' :: r))) ∧
    GroupShape g ∧ SpaceRun w1 ∧ '\n' ∈ w1 ∧ w2 ≠ [] ∧ SpaceRun w2 ∧
    SpaceRun w3 ∧ IdentShape n

/-- A concrete metadata record used by concrete instances below. -/
def M0 : ProcMeta :=
  ⟨"ui", "http://localhost:8089", "python -m locust", "locustfile.py"⟩

theorem mem_sortedInsert (le : α → α → Bool) (a x : α) (l : List α) :
    x ∈ sortedInsert le a l ↔ x = a ∨ x ∈ l := by
  induction l with
  | nil => simp [sortedInsert]
  | cons b l ih =>
    by_cases h : le a b = true
    · simp [sortedInsert, h]
    · simp only [sortedInsert, if_neg h, List.mem_cons, ih]
      tauto

theorem mem_stableSort (le : α → α → Bool) (x : α) (l : List α) :
    x ∈ stableSort le l ↔ x ∈ l := by
  induction l with
  | nil => simp [stableSort]
  | cons a l ih => simp [stableSort, mem_sortedInsert, ih]

theorem sortedInsert_ne_nil (le : α → α → Bool) (a : α) (l : List α) :
    sortedInsert le a l ≠ [] := by
  cases l with
  | nil => simp [sortedInsert]
  | cons b l =>
    by_cases h : le a b = true <;> simp [sortedInsert, h]

theorem stableSort_eq_nil_iff (le : α → α → Bool) (l : List α) :
    stableSort le l = [] ↔ l = [] := by
  cases l with
  | nil => simp [stableSort]
  | cons a l => simp [stableSort, sortedInsert_ne_nil]

theorem mem_dedupSeen (x : String) (l seen : List String) :
    x ∈ dedupSeen l seen → x ∈ l := by
  induction l generalizing seen with
  | nil => simp [dedupSeen]
  | cons a l ih =>
    by_cases h : a ∈ seen
    · intro hx
      simp only [dedupSeen, if_pos h] at hx
      exact List.mem_cons_of_mem _ (ih _ hx)
    · intro hx
      simp only [dedupSeen, if_neg h, List.mem_cons] at hx
      rcases hx with hx | hx
      · exact hx ▸ List.mem_cons_self _ _
      · exact List.mem_cons_of_mem _ (ih _ hx)

theorem mem_dedupStr (x : String) (l : List String) :
    x ∈ dedupStr l → x ∈ l := mem_dedupSeen x l []

theorem resolveSegs_clean (parts : List String) (acc : List String)
    (h : ∀ s ∈ parts, segOk s = true) : resolveSegs acc parts = acc ++ parts := by
  induction parts generalizing acc with
  | nil => simp [resolveSegs]
  | cons s rest ih =>
    have hs : segOk s = true := h s (List.mem_cons_self _ _)
    have h1 : ¬ s = ".." := by
      simp only [segOk, Bool.and_eq_true, decide_eq_true_eq] at hs
      exact hs.2
    have h2 : ¬ (s = "." ∨ s = "") := by
      simp only [segOk, Bool.and_eq_true, decide_eq_true_eq] at hs
      rintro (h' | h')
      · exact hs.1.2 h'
      · exact hs.1.1 h'
    simp only [resolveSegs, if_neg h1, if_neg h2]
    rw [ih _ (fun t ht => h t (List.mem_cons_of_mem _ ht))]
    simp

theorem resolvePath_clean (parts : List String)
    (h : ∀ s ∈ parts, segOk s = true) : resolvePath parts = parts := by
  simpa [resolvePath] using resolveSegs_clean parts [] h

theorem isPrefixOf_append (l r : List String) : l.isPrefixOf (l ++ r) = true := by
  induction l with
  | nil => simp [List.isPrefixOf]
  | cons a l ih => simp [List.isPrefixOf, ih]

theorem worldWF_workdir {w : World} (h : worldWF w = true) :
    ∀ s ∈ w.workdir, segOk s = true := by
  simp only [worldWF, Bool.and_eq_true, List.all_eq_true] at h
  exact h.1

theorem worldWF_entry {w : World} (h : worldWF w = true) {e : FsEntry}
    (he : e ∈ w.entries) : e.rel ≠ [] ∧ ∀ s ∈ e.rel, segOk s = true := by
  simp only [worldWF, Bool.and_eq_true, List.all_eq_true] at h
  have h2 := h.2 e he
  simp only [Bool.and_eq_true, List.all_eq_true] at h2
  refine ⟨?_, h2.2⟩
  intro hnil
  have h1 := h2.1
  rw [hnil] at h1
  simp at h1

theorem free_tcp_port_go_probes (bindOk : Nat → Bool) (n start : Nat) :
    ∃ k, k ≤ n ∧ (free_tcp_port_go bindOk start n).2 = List.range' start k := by
  induction n generalizing start with
  | zero => exact ⟨0, Nat.le_refl 0, rfl⟩
  | succ n ih =>
    by_cases h : bindOk start = true
    · exact ⟨1, Nat.succ_le_succ (Nat.zero_le n), by simp [free_tcp_port_go, h, List.range']⟩
    · obtain ⟨k, hk, hr⟩ := ih (start + 1)
      refine ⟨k + 1, Nat.succ_le_succ hk, ?_⟩
      simp [free_tcp_port_go, h, hr, List.range']

theorem free_tcp_port_go_some (bindOk : Nat → Bool) (n start p : Nat)
    (h : (free_tcp_port_go bindOk start n).1 = some p) :
    bindOk p = true ∧ start ≤ p ∧ p < start + n ∧
      ∀ q, start ≤ q → q < p → bindOk q = false := by
  induction n generalizing start with
  | zero => simp [free_tcp_port_go] at h
  | succ n ih =>
    by_cases hb : bindOk start = true
    · simp only [free_tcp_port_go, if_pos hb, Option.some.injEq] at h
      subst h
      exact ⟨hb, Nat.le_refl _, Nat.lt_add_of_pos_right (Nat.succ_pos n),
        fun q hq1 hq2 => absurd hq1 (Nat.not_le_of_lt hq2)⟩
    · simp only [free_tcp_port_go, if_neg hb] at h
      obtain ⟨h1, h2, h3, h4⟩ := ih (start + 1) h
      refine ⟨h1, Nat.le_trans (Nat.le_succ start) h2, by omega, fun q hq1 hq2 => ?_⟩
      rcases Nat.eq_or_lt_of_le hq1 with hq | hq
      · simpa [← hq] using hb
      · exact h4 q hq hq2

theorem free_tcp_port_go_none (bindOk : Nat → Bool) (n start : Nat) :
    (free_tcp_port_go bindOk start n).1 = none ↔
      ∀ i, i < n → bindOk (start + i) = false := by
  induction n generalizing start with
  | zero => simp [free_tcp_port_go]
  | succ n ih =>
    by_cases hb : bindOk start = true
    · simp only [free_tcp_port_go, if_pos hb]
      constructor
      · intro h; cases h
      · intro h
        have := h 0 (Nat.succ_pos n)
        simp [hb] at this
    · simp only [free_tcp_port_go, if_neg hb, ih (start + 1)]
      constructor
      · intro h i hi
        cases i with
        | zero => simpa using (Bool.not_eq_true _).mp hb
        | succ i =>
          have h2 := h i (Nat.lt_of_succ_lt_succ hi)
          have e : start + 1 + i = start + (i + 1) := by omega
          rwa [e] at h2
      · intro h i hi
        have h2 := h (i + 1) (Nat.succ_lt_succ hi)
        have e : start + (i + 1) = start + 1 + i := by omega
        rwa [e] at h2

/-- C8: `_free_tcp_port` probes ports in ascending order starting at `start`
(the probe list is `range' start k` for some `k ≤ max_tries`, so no probed
port is below `start` or at/beyond `start + max_tries`); it returns the
first port whose bind succeeds; and it fails (`RuntimeError`, modelled
`none`) exactly when all `max_tries` consecutive ports fail to bind. -/
theorem free_tcp_port_spec (bindOk : Nat → Bool) (start maxTries : Nat) :
    (∃ k, k ≤ maxTries ∧ (free_tcp_port bindOk start maxTries).2 = List.range' start k) ∧
    (∀ p, (free_tcp_port bindOk start maxTries).1 = some p →
      bindOk p = true ∧ start ≤ p ∧ p < start + maxTries ∧
        ∀ q, start ≤ q → q < p → bindOk q = false) ∧
    ((free_tcp_port bindOk start maxTries).1 = none ↔
      ∀ i, i < maxTries → bindOk (start + i) = false) :=
  ⟨free_tcp_port_go_probes bindOk maxTries start,
   fun p h => free_tcp_port_go_some bindOk maxTries start p h,
   free_tcp_port_go_none bindOk maxTries start⟩

/-- C8 witness: the spec theorem evaluated at a concrete oracle where ports
8089 and 8090 are taken and 8091 is free, with the defaults of the source
(`start=8089`, `max_tries=50`). -/
theorem free_tcp_port_spec_witness :
    (∃ k, k ≤ 50 ∧ (free_tcp_port (fun p => decide (8091 ≤ p)) 8089 50).2 = List.range' 8089 k) ∧
    (∀ p, (free_tcp_port (fun p => decide (8091 ≤ p)) 8089 50).1 = some p →
      decide (8091 ≤ p) = true ∧ 8089 ≤ p ∧ p < 8089 + 50 ∧
        ∀ q, 8089 ≤ q → q < p → decide (8091 ≤ q) = false) ∧
    ((free_tcp_port (fun p => decide (8091 ≤ p)) 8089 50).1 = none ↔
      ∀ i, i < 50 → decide (8091 ≤ 8089 + i) = false) :=
  free_tcp_port_spec (fun p => decide (8091 ≤ p)) 8089 50

/-! ## Theorems about discovery and resolution (C1, C5, C10) -/

theorem find_first_mem (w : World) (e : FsEntry)
    (h : find_first_locustfile w = some e) :
    e ∈ w.entries ∧ isLocustEntry e = true := by
  unfold find_first_locustfile at h
  have h1 := List.mem_of_find?_eq_some h
  have h2 := List.find?_some h
  simp only [rglobLocust, List.mem_filter] at h1
  exact ⟨h1.1, h2⟩

theorem fallback_contained (w : World) (hwf : worldWF w = true) (e : FsEntry)
    (h : find_first_locustfile w = some e) :
    w.workdir.isPrefixOf (resolvePath (w.workdir ++ e.rel)) = true ∧
      resolvePath (w.workdir ++ e.rel) ≠ w.workdir := by
  obtain ⟨hm, _⟩ := find_first_mem w e h
  obtain ⟨hne, hsegs⟩ := worldWF_entry hwf hm
  have hall : ∀ s ∈ w.workdir ++ e.rel, segOk s = true := by
    intro s hs
    rcases List.mem_append.mp hs with hs | hs
    · exact worldWF_workdir hwf s hs
    · exact hsegs s hs
  rw [resolvePath_clean _ hall]
  refine ⟨isPrefixOf_append _ _, ?_⟩
  intro hEq
  have hlen := congrArg List.length hEq
  rw [List.length_append] at hlen
  exact hne (List.length_eq_zero.mp (by omega))

theorem accepted_pref_contained (w : World) (hwf : worldWF w = true)
    (p : List String) (hu : under w.workdir p = true)
    (hl : isLocustPath w p = true) :
    w.workdir.isPrefixOf (resolvePath p) = true ∧ resolvePath p ≠ w.workdir := by
  have hwd : resolvePath w.workdir = w.workdir :=
    resolvePath_clean _ (worldWF_workdir hwf)
  unfold under at hu
  rw [hwd] at hu
  refine ⟨hu, ?_⟩
  simp only [isLocustPath, Bool.and_eq_true] at hl
  have hf : isFileAt w (resolvePath p) = true := hl.1
  unfold isFileAt at hf
  rw [List.any_eq_true] at hf
  obtain ⟨e, he, hcond⟩ := hf
  simp only [Bool.and_eq_true] at hcond
  have heq : w.workdir ++ e.rel = resolvePath p := eq_of_beq hcond.2
  obtain ⟨hne, _⟩ := worldWF_entry hwf he
  intro hbad
  rw [← heq] at hbad
  have hlen := congrArg List.length hbad
  rw [List.length_append] at hlen
  exact hne (List.length_eq_zero.mp (by omega))

/-- C1: for every caller-supplied preferred path (including relative paths
with `".."` segments), `_resolve_locustfile` never returns a path that
resolves outside the workspace root: every returned path resolves strictly
under `WORKDIR`; and a preferred path rejected by the containment or
naming-convention guard makes resolution identical to preferred-less
workspace-internal discovery. -/
theorem resolve_locustfile_contained (w : World) (pref : Option PPath)
    (hwf : worldWF w = true) :
    (∀ p, resolve_locustfile w pref = some p →
        w.workdir.isPrefixOf (resolvePath p) = true ∧ resolvePath p ≠ w.workdir) ∧
    (∀ pp, pref = some pp → prefAccepted w pp = false →
        resolve_locustfile w pref = resolve_locustfile w none) := by
  have hfb : ∀ p, resolve_fallback w = some p →
      w.workdir.isPrefixOf (resolvePath p) = true ∧ resolvePath p ≠ w.workdir := by
    intro p hp
    unfold resolve_fallback at hp
    cases hf : find_first_locustfile w with
    | none => rw [hf] at hp; cases hp
    | some e =>
      rw [hf] at hp
      have he := Option.some.inj hp
      rw [← he]
      exact fallback_contained w hwf e hf
  constructor
  · intro p hp
    cases pref with
    | none => exact hfb p hp
    | some pp =>
      simp only [resolve_locustfile] at hp
      by_cases hacc : prefAccepted w pp = true
      · rw [if_pos hacc] at hp
        have he := Option.some.inj hp
        have hacc' := hacc
        simp only [prefAccepted, Bool.and_eq_true] at hacc'
        rw [← he]
        exact accepted_pref_contained w hwf _ hacc'.1 hacc'.2
      · rw [if_neg hacc] at hp
        exact hfb p hp
  · intro pp hpp hrej
    subst hpp
    simp only [resolve_locustfile]
    rw [if_neg (by simp [hrej])]

/-- C1 witness: a concrete workspace `/home/ws` holding `locustfile.py`,
with the crafted relative preferred path `../../etc/locustfile.py`. -/
theorem resolve_locustfile_contained_witness :
    (∀ p, resolve_locustfile ⟨["home", "ws"], [⟨["locustfile.py"], true⟩]⟩
        (some ⟨false, ["..", "..", "etc", "locustfile.py"]⟩) = some p →
        (["home", "ws"] : List String).isPrefixOf (resolvePath p) = true ∧
          resolvePath p ≠ ["home", "ws"]) ∧
    (∀ pp, (some ⟨false, ["..", "..", "etc", "locustfile.py"]⟩ : Option PPath) = some pp →
        prefAccepted ⟨["home", "ws"], [⟨["locustfile.py"], true⟩]⟩ pp = false →
        resolve_locustfile ⟨["home", "ws"], [⟨["locustfile.py"], true⟩]⟩
            (some ⟨false, ["..", "..", "etc", "locustfile.py"]⟩) =
          resolve_locustfile ⟨["home", "ws"], [⟨["locustfile.py"], true⟩]⟩ none) :=
  resolve_locustfile_contained ⟨["home", "ws"], [⟨["locustfile.py"], true⟩]⟩
    (some ⟨false, ["..", "..", "etc", "locustfile.py"]⟩) (by decide)

/-- C5 counterexample: in workspace `/ws`, the traversal yields
`z_locustfile.py` before `a_locustfile.py` (scan order is arbitrary), both
at depth 1.  The fall-back resolver returns `z_locustfile.py` (the first
`rglob` hit), while the first element of `find_all` — minimal under
`(depth, case-insensitive name)` — is `a_locustfile.py`; so resolve does
not return the first element of `find_all`. -/
theorem resolve_fallback_not_sorted_first :
    resolve_locustfile ⟨["ws"], [⟨["z_locustfile.py"], true⟩, ⟨["a_locustfile.py"], true⟩]⟩
        none = some ["ws", "z_locustfile.py"] ∧
    (find_all_locustfiles
        ⟨["ws"], [⟨["z_locustfile.py"], true⟩, ⟨["a_locustfile.py"], true⟩]⟩).head? =
      some ⟨["a_locustfile.py"], true⟩ ∧
    some (["ws"] ++ ["a_locustfile.py"]) ≠
      resolve_locustfile ⟨["ws"], [⟨["z_locustfile.py"], true⟩, ⟨["a_locustfile.py"], true⟩]⟩
        none := by decide

theorem resolve_fallback_none_iff (w : World) :
    resolve_fallback w = none ↔ find_all_locustfiles w = [] := by
  unfold resolve_fallback
  cases hf : find_first_locustfile w with
  | some e =>
    simp only [reduceCtorEq, false_iff]
    intro hall
    have hm := find_first_mem w e hf
    have : e ∈ find_all_locustfiles w := by
      unfold find_all_locustfiles
      rw [mem_stableSort, List.mem_filter]
      unfold find_first_locustfile at hf
      exact ⟨List.mem_of_find?_eq_some hf, List.find?_some hf⟩
    rw [hall] at this
    cases this
  | none =>
    simp only [true_iff]
    unfold find_first_locustfile at hf
    rw [List.find?_eq_none] at hf
    unfold find_all_locustfiles
    rw [stableSort_eq_nil_iff, List.filter_eq_nil_iff]
    exact hf

/-- C5 amended: when the preferred path is absent or rejected, resolution
falls back to `_find_first_locustfile` — the first candidate in (arbitrary)
directory-traversal order, which need not be the first element of
`find_all`'s `(depth, case-insensitive name)` ordering — and it fails with
`FileNotFoundError` exactly when `find_all(root)` has no candidate at all;
any fall-back result is one of `find_all`'s candidates. -/
theorem resolve_fallback_first_traversal (w : World) (pref : Option PPath)
    (hrej : pref = none ∨ ∃ pp, pref = some pp ∧ prefAccepted w pp = false) :
    resolve_locustfile w pref = resolve_fallback w ∧
    (resolve_locustfile w pref = none ↔ find_all_locustfiles w = []) ∧
    (∀ e, find_first_locustfile w = some e →
        resolve_locustfile w pref = some (w.workdir ++ e.rel) ∧
          e ∈ find_all_locustfiles w) := by
  have heq : resolve_locustfile w pref = resolve_fallback w := by
    rcases hrej with h | ⟨pp, hpp, hrej⟩
    · rw [h]; rfl
    · rw [hpp]
      simp only [resolve_locustfile]
      rw [if_neg (by simp [hrej])]
  refine ⟨heq, by rw [heq]; exact resolve_fallback_none_iff w, ?_⟩
  intro e hf
  constructor
  · rw [heq]
    unfold resolve_fallback
    rw [hf]
  · unfold find_all_locustfiles
    rw [mem_stableSort, List.mem_filter]
    unfold find_first_locustfile at hf
    exact ⟨List.mem_of_find?_eq_some hf, List.find?_some hf⟩

/-- C5 witness: the amended theorem at the two-candidate world of the
counterexample, with no preferred path. -/
theorem resolve_fallback_first_traversal_witness :
    resolve_locustfile ⟨["ws"], [⟨["z_locustfile.py"], true⟩, ⟨["a_locustfile.py"], true⟩]⟩
        none =
      resolve_fallback ⟨["ws"], [⟨["z_locustfile.py"], true⟩, ⟨["a_locustfile.py"], true⟩]⟩ ∧
    (resolve_locustfile ⟨["ws"], [⟨["z_locustfile.py"], true⟩, ⟨["a_locustfile.py"], true⟩]⟩
        none = none ↔
      find_all_locustfiles
        ⟨["ws"], [⟨["z_locustfile.py"], true⟩, ⟨["a_locustfile.py"], true⟩]⟩ = []) ∧
    (∀ e, find_first_locustfile
        ⟨["ws"], [⟨["z_locustfile.py"], true⟩, ⟨["a_locustfile.py"], true⟩]⟩ = some e →
      resolve_locustfile ⟨["ws"], [⟨["z_locustfile.py"], true⟩, ⟨["a_locustfile.py"], true⟩]⟩
          none = some (["ws"] ++ e.rel) ∧
        e ∈ find_all_locustfiles
          ⟨["ws"], [⟨["z_locustfile.py"], true⟩, ⟨["a_locustfile.py"], true⟩]⟩) :=
  resolve_fallback_first_traversal
    ⟨["ws"], [⟨["z_locustfile.py"], true⟩, ⟨["a_locustfile.py"], true⟩]⟩ none (Or.inl rfl)

/-- C10: the `locust.find` tool never fails: whenever no candidate script
exists under the workspace root — in particular also when a preferred path
was supplied and rejected — it returns the empty best path (`none` models
`""`) and the empty candidate list, instead of raising or surfacing
`FileNotFoundError`. -/
theorem locust_find_total_empty (w : World) (pref : Option PPath)
    (h : find_all_locustfiles w = []) :
    locust_find w pref = ⟨none, []⟩ := by
  unfold locust_find
  rw [h]
  rfl

/-- C10 witness: a workspace holding only `README.md`, probed with a crafted
escaping preferred path. -/
theorem locust_find_total_empty_witness :
    locust_find ⟨["ws"], [⟨["README.md"], true⟩]⟩
        (some ⟨false, ["..", "x", "locustfile.py"]⟩) = ⟨none, []⟩ :=
  locust_find_total_empty ⟨["ws"], [⟨["README.md"], true⟩]⟩
    (some ⟨false, ["..", "x", "locustfile.py"]⟩) (by decide)

/-! ## Theorems about the process registry (C2, C3, C4) -/

theorem mem_eraseReg (reg : Registry) (pid : Nat) (e : Nat × ProcMeta) :
    e ∈ eraseReg reg pid ↔ e ∈ reg ∧ e.1 ≠ pid := by
  simp [eraseReg, List.mem_filter]

theorem psLoop_snd_sub (alive : Nat → Bool) (l : List (Nat × ProcMeta))
    (reg : Registry) (e : Nat × ProcMeta) (h : e ∈ (psLoop alive l reg).2) :
    e ∈ reg := by
  induction l generalizing reg with
  | nil => exact h
  | cons hd rest ih =>
    obtain ⟨pid, meta⟩ := hd
    simp only [psLoop] at h
    have h2 := ih _ h
    by_cases ha : alive pid = true
    · rwa [if_pos ha] at h2
    · rw [if_neg ha] at h2
      exact ((mem_eraseReg reg pid e).mp h2).1

theorem psLoop_dead_pruned (alive : Nat → Bool) (l : List (Nat × ProcMeta))
    (reg : Registry) (pid : Nat) (hdead : alive pid = false)
    (hin : pid ∈ l.map Prod.fst) :
    ∀ m, (pid, m) ∉ (psLoop alive l reg).2 := by
  induction l generalizing reg with
  | nil => simp at hin
  | cons hd rest ih =>
    obtain ⟨k, meta⟩ := hd
    intro m hm
    simp only [psLoop] at hm
    by_cases hk : k = pid
    · subst hk
      rw [hdead] at hm
      simp only [Bool.false_eq_true, if_neg (by simp : ¬(False : Prop))] at hm
      have h2 := psLoop_snd_sub alive rest _ _ hm
      exact ((mem_eraseReg reg k (k, m)).mp h2).2 rfl
    · have hin' : pid ∈ rest.map Prod.fst := by
        simp only [List.map_cons, List.mem_cons] at hin
        exact hin.resolve_left (fun h => hk h.symm)
      exact ih _ hin' m hm

theorem psLoop_fst_pids (alive : Nat → Bool) (l : List (Nat × ProcMeta))
    (reg : Registry) :
    (psLoop alive l reg).1.map PsEntry.pid = l.map Prod.fst := by
  induction l generalizing reg with
  | nil => rfl
  | cons hd rest ih =>
    obtain ⟨pid, meta⟩ := hd
    simp only [psLoop, List.map_cons, ih]

theorem psLoop_reports (alive : Nat → Bool) (l : List (Nat × ProcMeta))
    (reg : Registry) (pid : Nat) (m : ProcMeta) (h : (pid, m) ∈ l) :
    PsEntry.mk pid (alive pid) m ∈ (psLoop alive l reg).1 := by
  induction l generalizing reg with
  | nil => simp at h
  | cons hd rest ih =>
    obtain ⟨k, meta⟩ := hd
    rcases List.mem_cons.mp h with h | h
    · obtain ⟨h1, h2⟩ := Prod.mk.injEq .. ▸ h
      simp only [psLoop, List.mem_cons]
      left
      cases h1; cases h2; rfl
    · simp only [psLoop, List.mem_cons]
      exact Or.inr (ih _ h)

/-- C2 counterexample: a registry holding pid 7 whose process is dead.
`locust_ps` still *reports* the entry (flagged `alive=False`) in this
call's output — the claim's "excluded from output" is false — although it
does prune it from the map. -/
theorem locust_ps_dead_reported :
    (locust_ps (fun _ => false) [(7, M0)]).1 = [⟨7, false, M0⟩] ∧
    (locust_ps (fun _ => false) [(7, M0)]).1 ≠ [] ∧
    (locust_ps (fun _ => false) [(7, M0)]).2 = [] := by decide

/-- C2 amended: an entry whose process the liveness probe finds dead is
*included* in the current `list_jobs` output, marked `alive=false`; as a
side effect it is removed from the registry map, so it appears in no
subsequent `list_jobs` output (whatever liveness the later probe reports). -/
theorem locust_ps_prunes (alive : Nat → Bool) (reg : Registry) (pid : Nat)
    (hdead : alive pid = false) :
    (∀ m, (pid, m) ∈ reg → PsEntry.mk pid false m ∈ (locust_ps alive reg).1) ∧
    (∀ m, (pid, m) ∉ (locust_ps alive reg).2) ∧
    (∀ alive2 : Nat → Bool, ∀ en : PsEntry,
        en ∈ (locust_ps alive2 (locust_ps alive reg).2).1 → en.pid ≠ pid) := by
  have hd : ∀ m, (pid, m) ∉ (locust_ps alive reg).2 := by
    intro m hm
    by_cases hin : pid ∈ reg.map Prod.fst
    · exact psLoop_dead_pruned alive reg reg pid hdead hin m hm
    · exact hin (List.mem_map.mpr ⟨(pid, m), psLoop_snd_sub alive reg reg _ hm, rfl⟩)
  refine ⟨fun m hm => hdead ▸ psLoop_reports alive reg reg pid m hm, hd, ?_⟩
  intro alive2 en hen hpid
  have h1 : en.pid ∈ (locust_ps alive2 (locust_ps alive reg).2).1.map PsEntry.pid :=
    List.mem_map.mpr ⟨en, hen, rfl⟩
  rw [locust_ps, psLoop_fst_pids, hpid] at h1
  obtain ⟨e, he, hke⟩ := List.mem_map.mp h1
  obtain ⟨k, m⟩ := e
  cases hke
  exact hd m he

/-- C2 witness: the amended theorem at the concrete one-entry registry of
the counterexample. -/
theorem locust_ps_prunes_witness :
    (∀ m, (7, m) ∈ ([(7, M0)] : Registry) →
        PsEntry.mk 7 false m ∈ (locust_ps (fun _ => false) [(7, M0)]).1) ∧
    (∀ m, (7, m) ∉ (locust_ps (fun _ => false) [(7, M0)]).2) ∧
    (∀ alive2 : Nat → Bool, ∀ en : PsEntry,
        en ∈ (locust_ps alive2 (locust_ps (fun _ => false) [(7, M0)]).2).1 →
          en.pid ≠ 7) :=
  locust_ps_prunes (fun _ => false) [(7, M0)] 7 rfl

/-- C3 counterexample: both signal attempts fail (`os.kill` raises twice,
e.g. the process is gone and signalling errors out both times): the code
returns before reaching the `pop`, so the registry entry for pid 5 is *not*
removed — the claim's "removes the entry unconditionally once either
attempt has been made" is false. -/
theorem locust_stop_keeps_entry_on_double_failure :
    (locust_stop (fun _ _ => false) [(5, M0)] 5).2 = [(5, M0)] ∧
    (5, M0) ∈ (locust_stop (fun _ _ => false) [(5, M0)] 5).2 ∧
    (locust_stop (fun _ _ => false) [(5, M0)] 5).1.stopped = false := by decide

/-- C3 amended: `stop_job` reports `stopped=true` exactly when at least one
of the two signal calls succeeded without error; in that case (and only
then) the entry for the pid is removed from the registry; when both signal
attempts fail the registry is left unchanged. -/
theorem locust_stop_spec (kill : Nat → Sig → Bool) (reg : Registry) (pid : Nat) :
    (locust_stop kill reg pid).1.stopped =
        (kill pid Sig.sigint || kill pid Sig.sigterm) ∧
    ((kill pid Sig.sigint || kill pid Sig.sigterm) = true →
      (locust_stop kill reg pid).2 = eraseReg reg pid ∧
        ∀ m, (pid, m) ∉ (locust_stop kill reg pid).2) ∧
    ((kill pid Sig.sigint || kill pid Sig.sigterm) = false →
      (locust_stop kill reg pid).2 = reg) := by
  by_cases h1 : kill pid Sig.sigint = true
  · refine ⟨by simp [locust_stop, h1], fun _ => ⟨by simp [locust_stop, h1], ?_⟩,
      fun hc => by simp [h1] at hc⟩
    intro m hm
    rw [locust_stop, if_pos h1] at hm
    exact ((mem_eraseReg reg pid (pid, m)).mp hm).2 rfl
  · by_cases h2 : kill pid Sig.sigterm = true
    · refine ⟨by simp [locust_stop, h1, h2], fun _ => ⟨by simp [locust_stop, h1, h2], ?_⟩,
        fun hc => by simp [h2] at hc⟩
      intro m hm
      rw [locust_stop, if_neg h1, if_pos h2] at hm
      exact ((mem_eraseReg reg pid (pid, m)).mp hm).2 rfl
    · refine ⟨?_, fun hc => ?_, fun _ => by simp [locust_stop, h1, h2]⟩
      · simp [locust_stop, h1, h2,
          (Bool.not_eq_true _).mp h1, (Bool.not_eq_true _).mp h2]
      · rw [(Bool.not_eq_true _).mp h1, (Bool.not_eq_true _).mp h2] at hc
        cases hc

/-- C4 counterexample: pid 5 is *not* registered (the registry is empty),
yet `stop_job` reports `stopped=true` whenever the first `os.kill` call
succeeds — the registry is never consulted, so "returns failure for every
unregistered pid" is false. -/
theorem locust_stop_unregistered_success :
    (5 : Nat) ∉ (([] : Registry)).map Prod.fst ∧
    (locust_stop (fun _ _ => true) [] 5).1.stopped = true := by decide

/-- C4 amended: `stop_job` never raises (it is a total function of the
signal outcomes); it returns `stopped=false` exactly when both signal
attempts fail — which is what happens for a pid with no signalable OS
process — and in that case leaves the registry unchanged; the result is
independent of whether the pid is registered (the registry is never
consulted for it). -/
theorem locust_stop_unregistered (kill : Nat → Sig → Bool) (reg reg' : Registry)
    (pid : Nat) (h1 : kill pid Sig.sigint = false)
    (h2 : kill pid Sig.sigterm = false) :
    (locust_stop kill reg pid).1.stopped = false ∧
    (locust_stop kill reg pid).2 = reg ∧
    (locust_stop kill reg pid).1 = (locust_stop kill reg' pid).1 := by
  refine ⟨by simp [locust_stop, h1, h2], by simp [locust_stop, h1, h2], ?_⟩
  simp [locust_stop, h1, h2]

/-- C4 witness: a dead pid (both signals fail) probed against the empty and
a non-empty registry. -/
theorem locust_stop_unregistered_witness :
    (locust_stop (fun _ _ => false) [] 5).1.stopped = false ∧
    (locust_stop (fun _ _ => false) [] 5).2 = [] ∧
    (locust_stop (fun _ _ => false) [] 5).1 =
      (locust_stop (fun _ _ => false) [(5, M0)] 5).1 :=
  locust_stop_unregistered (fun _ _ => false) [] [(5, M0)] 5 rfl rfl

/-! ## Theorems about the headless launcher (C7) -/

/-- C7 counterexample: a run that exits non-zero with *empty* captured
stderr: the returned `stderr` field is the `CalledProcessError` text, not
the captured (empty) stream — so "stderr returned verbatim regardless of
exit status" is false. -/
theorem locust_run_headless_stderr_not_verbatim :
    (RunOutcome.mk 1 "boom" "").err = "" ∧
    (locust_run_headless ⟨1, "boom", ""⟩ []).1.stderr ≠ (RunOutcome.mk 1 "boom" "").err := by
  decide

/-- C7 amended: `launch_headless` blocks until the runner exits (the oracle
is the exited process's outcome); `ok` is true exactly on exit code 0;
`stdout` is returned verbatim always, and `stderr` verbatim except when the
exit code is non-zero *and* the captured stderr is empty, in which case a
textual description of the failure is substituted; the process registry is
not touched. -/
theorem locust_run_headless_spec (o : RunOutcome) (reg : Registry) :
    ((locust_run_headless o reg).1.ok = true ↔ o.exitCode = 0) ∧
    (locust_run_headless o reg).1.stdout = o.out ∧
    (o.exitCode = 0 → (locust_run_headless o reg).1.stderr = o.err) ∧
    (o.err ≠ "" → (locust_run_headless o reg).1.stderr = o.err) ∧
    (locust_run_headless o reg).2 = reg := by
  by_cases h : o.exitCode = 0
  · simp [locust_run_headless, h]
  · refine ⟨by simp [locust_run_headless, h], by simp [locust_run_headless, h],
      fun hc => absurd hc h, fun he => ?_, by simp [locust_run_headless, h]⟩
    simp [locust_run_headless, h, he]

/-! ## Theorems about the introspector (C6) -/

theorem isPrefixOf_append_drop (pat l : List Char) (h : pat.isPrefixOf l = true) :
    l = pat ++ l.drop pat.length := by
  induction pat generalizing l with
  | nil => simp
  | cons a as ih =>
    cases l with
    | nil => simp [List.isPrefixOf] at h
    | cons b bs =>
      simp only [List.isPrefixOf, Bool.and_eq_true, beq_iff_eq] at h
      obtain ⟨hab, h2⟩ := h
      subst hab
      simp only [List.cons_append, List.length_cons, List.drop_succ_cons]
      exact congrArg (List.cons a) (ih bs h2)

theorem expectStr_eq (pat l r : List Char) (h : expectStr pat l = some r) :
    l = pat ++ r := by
  unfold expectStr at h
  by_cases hp : pat.isPrefixOf l = true
  · rw [if_pos hp] at h
    have h2 := Option.some.inj h
    subst h2
    exact isPrefixOf_append_drop pat l hp
  · rw [if_neg hp] at h
    cases h

theorem spaceRun_takeWhile (l : List Char) : SpaceRun (l.takeWhile isPySpace) :=
  fun _ hc => List.mem_takeWhile_imp hc

theorem mem_of_contains (l : List Char) (c : Char) (h : l.contains c = true) :
    c ∈ l := List.mem_of_elem_eq_true h

theorem matchGroupArgs_sound (l lg : List Char) (h : matchGroupArgs l = some lg) :
    ∃ gw inner, l = gw ++ '(' :: (inner ++ ')' :: lg) ∧ SpaceRun gw ∧
      ∀ c ∈ inner, c ≠ ')' := by
  unfold matchGroupArgs at h
  split at h
  case _ c l2 heq =>
    split at h
    case _ l3 heq2 =>
      have hlg := Option.some.inj h
      subst hlg
      refine ⟨l.takeWhile isPySpace, l2.takeWhile (fun c => c ≠ ')'), ?_,
        spaceRun_takeWhile l, fun c hc => by simpa using List.mem_takeWhile_imp hc⟩
      have h1 : l = l.takeWhile isPySpace ++ l.dropWhile isPySpace :=
        (List.takeWhile_append_dropWhile isPySpace l).symm
      have h2 : l2 = l2.takeWhile (fun c => c ≠ ')') ++ l2.dropWhile (fun c => c ≠ ')') :=
        (List.takeWhile_append_dropWhile _ l2).symm
      conv_lhs => rw [h1, heq, h2, heq2]
    case _ hne =>
      cases h
  case _ hne =>
    cases h

theorem ne_nil_of_isEmpty_eq_false {l : List Char} (h : l.isEmpty = false) :
    l ≠ [] := by
  cases l with
  | nil => cases h
  | cons a as => simp

theorem matchDefPart_sound (l : List Char) (n : String) (r : List Char)
    (h : matchDefPart l = some (n, r)) :
    ∃ w1 w2 w3,
      l = w1 ++ 'd' :: 'e' :: 'f' :: (w2 ++ n.toList ++ w3 ++ '(' :: r) ∧
      SpaceRun w1 ∧ '\n' ∈ w1 ∧ w2 ≠ [] ∧ SpaceRun w2 ∧ SpaceRun w3 ∧
      IdentShape n := by
  simp only [matchDefPart] at h
  split at h
  case isTrue hnl =>
    split at h
    case _ l2 heqdef =>
      split at h
      case isTrue hw2 => cases h
      case isFalse hw2 =>
        split at h
        case _ c l4 heql3 =>
          split at h
          case isTrue hident =>
            split at h
            case _ l6 heqpar =>
              have hpair := Option.some.inj h
              obtain ⟨hn, hr⟩ := Prod.mk.injEq .. ▸ hpair
              subst hr
              refine ⟨l.takeWhile isPySpace, l2.takeWhile isPySpace,
                (l4.dropWhile isWordChar).takeWhile isPySpace, ?_,
                spaceRun_takeWhile l, ?_, ?_, spaceRun_takeWhile l2,
                spaceRun_takeWhile _, ?_⟩
              · have h1 : l = l.takeWhile isPySpace ++ l.dropWhile isPySpace :=
                  (List.takeWhile_append_dropWhile isPySpace l).symm
                have h2 : l.dropWhile isPySpace = ['d', 'e', 'f'] ++ l2 :=
                  expectStr_eq _ _ _ heqdef
                have h3 : l2 = l2.takeWhile isPySpace ++ l2.dropWhile isPySpace :=
                  (List.takeWhile_append_dropWhile isPySpace l2).symm
                have h4 : l4 = l4.takeWhile isWordChar ++ l4.dropWhile isWordChar :=
                  (List.takeWhile_append_dropWhile isWordChar l4).symm
                have h5 : l4.dropWhile isWordChar =
                    (l4.dropWhile isWordChar).takeWhile isPySpace ++
                      (l4.dropWhile isWordChar).dropWhile isPySpace :=
                  (List.takeWhile_append_dropWhile isPySpace _).symm
                have hnlist : n.toList = c :: l4.takeWhile isWordChar := by
                  rw [← hn]; exact rfl
                rw [hnlist]
                conv_lhs => rw [h1, h2, h3, heql3, h4, h5, heqpar]
                simp [List.append_assoc]
              · exact mem_of_contains _ _ hnl
              · exact ne_nil_of_isEmpty_eq_false ((Bool.not_eq_true _).mp hw2)
              · refine ⟨c, l4.takeWhile isWordChar, by rw [← hn]; exact rfl, hident, ?_⟩
                exact fun x hx => List.mem_takeWhile_imp hx
            case _ hne => cases h
          case isFalse hident => cases h
        case _ heqnil => cases h
    case _ hne => cases h
  case isFalse hnl => cases h

theorem matchTaskAt_sound (l : List Char) (n : String) (r : List Char)
    (h : matchTaskAt l = some (n, r)) : TaskMatch l n r := by
  unfold matchTaskAt at h
  split at h
  case _ => cases h
  case _ l0 heqat =>
    have hl : l = ['@', 't', 'a', 's', 'k'] ++ l0 := expectStr_eq _ _ _ heqat
    have noGroup : matchDefPart l0 = some (n, r) → TaskMatch l n r := by
      intro hdp
      obtain ⟨w1, w2, w3, hEq, hs1, hnl, hw2, hs2, hs3, hid⟩ :=
        matchDefPart_sound l0 n r hdp
      exact ⟨[], w1, w2, w3, by rw [hl, hEq]; rfl, Or.inl rfl, hs1, hnl, hw2, hs2, hs3, hid⟩
    split at h
    case _ lg heqgrp =>
      split at h
      case _ r0 heqdp =>
        obtain ⟨n', r'⟩ := r0
        have hr0 := Option.some.inj h
        obtain ⟨hn', hr'⟩ := Prod.mk.injEq .. ▸ hr0
        rw [← hn', ← hr']
        obtain ⟨gw, inner, hEq0, hsgw, hinner⟩ := matchGroupArgs_sound l0 lg heqgrp
        obtain ⟨w1, w2, w3, hEq, hs1, hnl, hw2, hs2, hs3, hid⟩ :=
          matchDefPart_sound lg n' r' heqdp
        refine ⟨gw ++ '(' :: (inner ++ [')']), w1, w2, w3, ?_,
          Or.inr ⟨gw, inner, rfl, hsgw, hinner⟩, hs1, hnl, hw2, hs2, hs3, hid⟩
        rw [hl, hEq0, hEq]
        simp [List.append_assoc]
      case _ => exact noGroup h
    case _ => exact noGroup h

theorem taskMatch_consumed (l : List Char) (n : String) (r : List Char)
    (h : TaskMatch l n r) : ∃ pre, l = pre ++ r := by
  obtain ⟨g, w1, w2, w3, hEq, _⟩ := h
  refine ⟨'@' :: 't' :: 'a' :: 's' :: 'k' ::
    (g ++ w1 ++ ('d' :: 'e' :: 'f' :: (w2 ++ n.toList ++ w3 ++ ['(']))), ?_⟩
  rw [hEq]
  simp [List.append_assoc]

theorem findTasksFuel_sound (fuel : Nat) (l : List Char) (n : String)
    (h : n ∈ findTasksFuel fuel l) :
    ∃ pre rest r, l = pre ++ rest ∧ TaskMatch rest n r := by
  induction fuel generalizing l with
  | zero => simp [findTasksFuel] at h
  | succ fuel ih =>
    cases l with
    | nil => simp [findTasksFuel] at h
    | cons c cs =>
      cases hm : matchTaskAt (c :: cs) with
      | some p =>
        obtain ⟨n0, after⟩ := p
        rw [findTasksFuel, hm] at h
        rcases List.mem_cons.mp h with rfl | h2
        · exact ⟨[], c :: cs, after, by simp, matchTaskAt_sound _ _ _ hm⟩
        · obtain ⟨pre, rest, r, hEq, htm⟩ := ih after h2
          have hT := matchTaskAt_sound _ _ _ hm
          obtain ⟨B, hB⟩ := taskMatch_consumed _ _ _ hT
          exact ⟨B ++ pre, rest, r, by rw [hB, hEq, List.append_assoc], htm⟩
      | none =>
        rw [findTasksFuel, hm] at h
        obtain ⟨pre, rest, r, hEq, htm⟩ := ih cs h
        exact ⟨c :: pre, rest, r, by rw [hEq]; rfl, htm⟩

/-- C6 counterexample: in `"@task def f(): pass"` the identifier `f`
follows the task annotation and the `def` keyword *on the same line*; the
recognizer worded as the claim states accepts it, but the code's regex
demands a newline between the annotation and `def`, so the parse reports no
task at all. -/
theorem parse_tasks_same_line_missed :
    specFindTasks "@task def f(): pass".toList = ["f"] ∧
    (parse_tasks_and_tags "@task def f(): pass").tasks = [] ∧
    (["f"] : List String) ≠ [] := by decide

/-- C6 amended: every task name the introspection reports arises from an
occurrence of the task pattern in which the `def` keyword stands on a
*later* line than the `@task` annotation: the separating whitespace must
contain at least one newline (so a same-line `def` is never recognized) and
may contain several (blank lines are allowed, not only the next line); the
captured identifier then follows `def`.  Absence of matches yields an empty
result, never an error (the parse is a total function). -/
theorem parse_tasks_and_tags_sound (src : String) (n : String)
    (h : n ∈ (parse_tasks_and_tags src).tasks) :
    ∃ pre rest r, src.toList = pre ++ rest ∧ TaskMatch rest n r := by
  have h1 : n ∈ findTasks src.toList := by
    simp only [parse_tasks_and_tags] at h
    exact mem_dedupStr _ _ ((mem_stableSort _ _ _).mp h)
  exact findTasksFuel_sound _ _ _ h1

/-- C6 witness: the soundness theorem applied to a source whose single task
`f` is declared with `def` on the line after its annotation. -/
theorem parse_tasks_and_tags_sound_witness :
    ∃ pre rest r, "@task\ndef f(): pass".toList = pre ++ rest ∧ TaskMatch rest "f" r :=
  parse_tasks_and_tags_sound "@task\ndef f(): pass" "f" (by decide)

/-- C9: for every successful `convert` given a destination path, the
returned path is set, and reading the filesystem back at that path yields
exactly the generated source text the call returned. -/
theorem har_to_locust_roundtrip (wd : List String) (fs : Fs) (code : String)
    (wp : PPath) :
    ∃ q, (har_to_locust wd fs code (some wp)).1.path = some q ∧
      fsRead (har_to_locust wd fs code (some wp)).2 q =
        some (har_to_locust wd fs code (some wp)).1.code := by
  refine ⟨_, rfl, ?_⟩
  simp [har_to_locust, fsRead, fsWrite, List.find?]

end LocustMCP
